import Mathlib

/-!
Shallow embedding of the finite-state-machine engine
(packages/core/src/common/finite-state-machine.ts) and of the order
state-machine adapter
(packages/core/src/service/helpers/order-state-machine/order-state-machine.ts).

Conventions of the embedding:
* JavaScript objects with string keys kept in insertion order are modelled
  as association lists (key-value pairs in order).
* Asynchronous results are modelled by their single resolved value: the
  engine awaits every callback result before using it, so a callback is
  embedded as a function returning its resolved value.  A single-value
  Observable is likewise modelled by its resolved value.
* Mutation of the order entity is modelled by explicit state passing: a
  callback that mutates the entity takes the entity and returns its new
  value.
* A callback that throws is modelled by an Option error component, which
  the engine and the adapter propagate; on propagation the statements below
  still report the events emitted and the entity value reached before the
  throw.  The downstream service calls made by the adapter end hook are
  modelled as event emissions that do not throw.
* Invocations of callbacks and of downstream services are recorded in an
  event trace, in invocation order.
-/

/-- Resolved value of an onTransitionStart callback: the literal false,
a string message, or anything else (undefined, void, true), which lets the
transition proceed. -/
inductive GuardResult where
  | gfalse
  | gstring (s : String)
  | proceed
deriving DecidableEq, Repr

/-- JavaScript Array.prototype.indexOf: index of the first occurrence of
the element, or -1 when absent. -/
def idxOf {α : Type} [DecidableEq α] (xs : List α) (a : α) : Int :=
  match xs with
  | [] => -1
  | x :: rest =>
      if x = a then 0
      else if idxOf rest a = -1 then -1 else idxOf rest a + 1

/-- Keys of an association list, in order. -/
def keysOf {T A : Type} (g : List (T × A)) : List T :=
  g.map Prod.fst

/-- Lookup of the destination list stored under a state key.  The
TypeScript type Transitions requires every state to have an entry, so for
well-formed configurations the default branch is unreachable; it returns
the empty list, which makes every transition out of an unlisted state
illegal. -/
def destsOf {T : Type} [DecidableEq T] (g : List (T × List T)) (s : T) : List T :=
  match g.find? (fun p => decide (p.1 = s)) with
  | some p => p.2
  | none => []

/-- JavaScript Object.prototype.hasOwnProperty on an association list. -/
def hasKey {T A : Type} [DecidableEq T] (g : List (T × A)) (s : T) : Bool :=
  (g.find? (fun p => decide (p.1 = s))).isSome

/-- The config object used to instantiate the FSM, from
finite-state-machine.ts.  T is the state type, D the data payload type,
E the error type thrown by callbacks, Ev the type of events emitted by
callbacks (used to record invocations of the adapter hooks and downstream
services).  The end hook returns emitted events and the updated data; the
error hook returns emitted events and an optional thrown error. -/
structure StateMachineConfig (T D E Ev : Type) where
  transitions : List (T × List T)
  onTransitionStart : Option (T → T → D → GuardResult)
  onTransitionEnd : Option (T → T → D → List Ev × D)
  onError : Option (T → T → Option String → List Ev × Option E)

/-- Events emitted by one run of the engine: evaluation of the configured
start guard together with its resolved result, the commit of the new
current state, the invocation of the configured end hook, the invocation
of the configured error hook with the forwarded message, and events
emitted from inside a configured hook. -/
inductive EngineEv (T Ev : Type) where
  | guardEval (fromState toState : T) (r : GuardResult)
  | commit (s : T)
  | endHook (fromState toState : T)
  | errorHook (fromState toState : T) (msg : Option String)
  | hookEv (e : Ev)
deriving DecidableEq, Repr

/-- True exactly on endHook events. -/
def EngineEv.isEndHook {T Ev : Type} : EngineEv T Ev → Bool
  | .endHook _ _ => true
  | _ => false

/-- True exactly on commit events. -/
def EngineEv.isCommit {T Ev : Type} : EngineEv T Ev → Bool
  | .commit _ => true
  | _ => false

/-- True exactly on errorHook events. -/
def EngineEv.isErrorHook {T Ev : Type} : EngineEv T Ev → Bool
  | .errorHook _ _ _ => true
  | _ => false

/-- Result of one run of FSM.transitionTo: the events emitted in order,
the value of the private field currentState when the run ends, the final
value of the data payload, and the error propagating out of the call when
a configured callback threw. -/
structure TransitionResult (T D E Ev : Type) where
  events : List (EngineEv T Ev)
  currentState : T
  data : D
  exn : Option E
deriving Repr

namespace FSM

variable {T D E Ev : Type} [DecidableEq T]

/-- FSM.getNextStates: returns config.transitions[currentState].to. -/
def getNextStates (cfg : StateMachineConfig T D E Ev) (currentState : T) : List T :=
  destsOf cfg.transitions currentState

/-- FSM.canTransitionTo: -1 < config.transitions[currentState].to.indexOf(state). -/
def canTransitionTo (cfg : StateMachineConfig T D E Ev) (currentState state : T) : Bool :=
  decide ((-1 : Int) < idxOf (destsOf cfg.transitions currentState) state)

/-- The private FSM.onError helper: invokes config.onError when it is
configured, otherwise does nothing.  Returns the emitted events and the
error thrown by the handler, if any.  The errorHook event records the
invocation of a configured handler. -/
def runOnError (cfg : StateMachineConfig T D E Ev) (fromState toState : T)
    (msg : Option String) : List (EngineEv T Ev) × Option E :=
  match cfg.onError with
  | some h =>
      let r := h fromState toState msg
      (EngineEv.errorHook fromState toState msg :: r.1.map EngineEv.hookEv, r.2)
  | none => ([], none)

/-- The commit phase of FSM.transitionTo: records fromState, assigns
currentState := state, then invokes the configured end hook and awaits
it.  pre holds the events emitted by the guard phase. -/
def commitPhase (cfg : StateMachineConfig T D E Ev) (cur target : T) (d : D)
    (pre : List (EngineEv T Ev)) : TransitionResult T D E Ev :=
  match cfg.onTransitionEnd with
  | some g =>
      let r := g cur target d
      ⟨pre ++ [EngineEv.commit target, EngineEv.endHook cur target]
          ++ r.1.map EngineEv.hookEv,
        target, r.2, none⟩
  | none => ⟨pre ++ [EngineEv.commit target], target, d, none⟩

/-- FSM.transitionTo, translated clause by clause from
finite-state-machine.ts.  When the target is not reachable from the
current state the private onError helper runs and the method returns with
no state change.  Otherwise the configured start guard, when present, is
evaluated and its resolved value inspected: false and string values route
to the onError helper and abort; any other value lets the run commit the
new state and invoke the configured end hook. -/
def transitionTo (cfg : StateMachineConfig T D E Ev) (cur target : T) (d : D) :
    TransitionResult T D E Ev :=
  if canTransitionTo cfg cur target then
    match cfg.onTransitionStart with
    | some f =>
        match f cur target d with
        | .gfalse =>
            let r := runOnError cfg cur target none
            ⟨EngineEv.guardEval cur target .gfalse :: r.1, cur, d, r.2⟩
        | .gstring s =>
            let r := runOnError cfg cur target (some s)
            ⟨EngineEv.guardEval cur target (.gstring s) :: r.1, cur, d, r.2⟩
        | .proceed =>
            commitPhase cfg cur target d [EngineEv.guardEval cur target .proceed]
    | none => commitPhase cfg cur target d []
  else
    let r := runOnError cfg cur target none
    ⟨r.1, cur, d, r.2⟩

end FSM

/-! Basic lemmas about idxOf and destsOf. -/

theorem idxOf_ge_neg_one {α : Type} [DecidableEq α] (xs : List α) (a : α) :
    (-1 : Int) ≤ idxOf xs a := by
  induction xs with
  | nil => simp [idxOf]
  | cons x rest ih =>
      simp only [idxOf]
      split
      · omega
      · split <;> omega

theorem neg_one_lt_idxOf_iff {α : Type} [DecidableEq α] (xs : List α) (a : α) :
    (-1 : Int) < idxOf xs a ↔ a ∈ xs := by
  induction xs with
  | nil => simp [idxOf]
  | cons x rest ih =>
      simp only [idxOf, List.mem_cons]
      by_cases hx : x = a
      · simp [hx]
      · have hne : ¬ a = x := fun h => hx h.symm
        simp only [hx, if_false, hne, false_or]
        by_cases hr : idxOf rest a = -1
        · simp only [hr, if_true]
          constructor
          · intro h; omega
          · intro h
            have := ih.mpr h
            omega
        · simp only [hr, if_false]
          have hge := idxOf_ge_neg_one rest a
          constructor
          · intro _
            exact ih.mp (by omega)
          · intro _
            omega

/-! Helper lemmas about the engine. -/

theorem runOnError_eq_of_none {T D E Ev : Type} [DecidableEq T]
    (cfg : StateMachineConfig T D E Ev) (f t : T) (msg : Option String)
    (h : cfg.onError = none) :
    FSM.runOnError cfg f t msg = ([], none) := by
  simp [FSM.runOnError, h]

theorem runOnError_eq_of_some {T D E Ev : Type} [DecidableEq T]
    (cfg : StateMachineConfig T D E Ev) (f t : T) (msg : Option String)
    (h : T → T → Option String → List Ev × Option E) (hh : cfg.onError = some h) :
    FSM.runOnError cfg f t msg =
      (EngineEv.errorHook f t msg :: (h f t msg).1.map EngineEv.hookEv,
        (h f t msg).2) := by
  simp [FSM.runOnError, hh]

theorem all_map_hookEv {T Ev : Type} (l : List Ev) (p : EngineEv T Ev → Bool)
    (hp : ∀ e : Ev, p (EngineEv.hookEv e) = true) :
    (l.map (EngineEv.hookEv (T := T))).all p = true := by
  simp only [List.all_eq_true]
  intro e he
  obtain ⟨x, _, rfl⟩ := List.mem_map.mp he
  exact hp x

theorem runOnError_events_all {T D E Ev : Type} [DecidableEq T]
    (cfg : StateMachineConfig T D E Ev) (f t : T) (msg : Option String)
    (p : EngineEv T Ev → Bool)
    (hp : ∀ e : Ev, p (EngineEv.hookEv e) = true)
    (herr : p (EngineEv.errorHook f t msg) = true) :
    (FSM.runOnError cfg f t msg).1.all p = true := by
  unfold FSM.runOnError
  cases h : cfg.onError with
  | none => simp
  | some hdl =>
      simp only [List.all_cons, herr, Bool.true_and]
      exact all_map_hookEv _ p hp

/-- A transition attempt that the engine rejects, together with the message
it forwards to the error path: either the target is not reachable from the
current state (message none), or the configured start guard resolved to
false (message none) or to a string (that string as the message). -/
def RejectsWith {T D E Ev : Type} [DecidableEq T] (cfg : StateMachineConfig T D E Ev)
    (cur target : T) (d : D) (msg : Option String) : Prop :=
  (FSM.canTransitionTo cfg cur target = false ∧ msg = none) ∨
  (FSM.canTransitionTo cfg cur target = true ∧
    ∃ f, cfg.onTransitionStart = some f ∧
      ((f cur target d = .gfalse ∧ msg = none) ∨
        ∃ s, f cur target d = .gstring s ∧ msg = some s))

/-- C4: on every rejected call to transitionTo (illegal target, guard
resolved to false, or guard resolved to a string) the engine returns with
currentState unchanged, the data untouched, no commit and no end-hook
invocation; the configured onError handler is invoked with the current
state, the target and the forwarded message, and its thrown error is the
one propagating out; when no onError handler is configured the call
returns silently with no exception. -/
theorem transitionTo_rejection_spec {T D E Ev : Type} [DecidableEq T]
    (cfg : StateMachineConfig T D E Ev) (cur target : T) (d : D) (msg : Option String)
    (hrej : RejectsWith cfg cur target d msg) :
    (FSM.transitionTo cfg cur target d).currentState = cur ∧
    (FSM.transitionTo cfg cur target d).data = d ∧
    (FSM.transitionTo cfg cur target d).events.all
        (fun e => !e.isEndHook && !e.isCommit) = true ∧
    (cfg.onError = none → (FSM.transitionTo cfg cur target d).exn = none) ∧
    (∀ h, cfg.onError = some h →
      EngineEv.errorHook cur target msg ∈ (FSM.transitionTo cfg cur target d).events ∧
      (FSM.transitionTo cfg cur target d).exn = (h cur target msg).2) := by
  have hp : ∀ e : Ev,
      (fun e : EngineEv T Ev => !e.isEndHook && !e.isCommit) (EngineEv.hookEv e) = true := by
    intro e; simp [EngineEv.isEndHook, EngineEv.isCommit]
  rcases hrej with ⟨hcan, hmsg⟩ | ⟨hcan, f, hf, hcase⟩
  · subst hmsg
    simp only [FSM.transitionTo, hcan, Bool.false_eq_true, if_false]
    refine ⟨by trivial, by trivial, ?_, ?_, ?_⟩
    · exact runOnError_events_all cfg cur target none _ hp
        (by simp [EngineEv.isEndHook, EngineEv.isCommit])
    · intro hnone
      simp [runOnError_eq_of_none cfg cur target none hnone]
    · intro h hsome
      simp [runOnError_eq_of_some cfg cur target none h hsome]
  · rcases hcase with ⟨hres, hmsg⟩ | ⟨s, hres, hmsg⟩ <;> subst hmsg <;>
      simp only [FSM.transitionTo, hcan, if_true, hf, hres] <;>
      refine ⟨by trivial, by trivial, ?_, ?_, ?_⟩
    · simp only [List.all_cons]
      refine (Bool.and_eq_true _ _).mpr ⟨by simp [EngineEv.isEndHook, EngineEv.isCommit], ?_⟩
      exact runOnError_events_all cfg cur target none _ hp
        (by simp [EngineEv.isEndHook, EngineEv.isCommit])
    · intro hnone
      simp [runOnError_eq_of_none cfg cur target none hnone]
    · intro h hsome
      simp [runOnError_eq_of_some cfg cur target none h hsome]
    · simp only [List.all_cons]
      refine (Bool.and_eq_true _ _).mpr ⟨by simp [EngineEv.isEndHook, EngineEv.isCommit], ?_⟩
      exact runOnError_events_all cfg cur target (some s) _ hp
        (by simp [EngineEv.isEndHook, EngineEv.isCommit])
    · intro hnone
      simp [runOnError_eq_of_none cfg cur target (some s) hnone]
    · intro h hsome
      simp [runOnError_eq_of_some cfg cur target (some s) h hsome]

/-- C6: on every successful engine transition (reachable target, guard
absent or resolving to proceed) with a configured end hook, currentState
ends at the requested target, no error propagates, the data is the value
produced by the end hook, and the event trace contains exactly one endHook
event, placed immediately after the commit of the target state and
carrying the pre-transition state as fromState. -/
theorem transitionTo_success_spec {T D E Ev : Type} [DecidableEq T]
    (cfg : StateMachineConfig T D E Ev) (cur target : T) (d : D)
    (g : T → T → D → List Ev × D)
    (hcan : FSM.canTransitionTo cfg cur target = true)
    (hend : cfg.onTransitionEnd = some g)
    (hstart : cfg.onTransitionStart = none ∨
      ∃ f, cfg.onTransitionStart = some f ∧ f cur target d = .proceed) :
    (FSM.transitionTo cfg cur target d).currentState = target ∧
    (FSM.transitionTo cfg cur target d).exn = none ∧
    (FSM.transitionTo cfg cur target d).data = (g cur target d).2 ∧
    ∃ pre post,
      (FSM.transitionTo cfg cur target d).events =
        pre ++ EngineEv.commit target :: EngineEv.endHook cur target :: post ∧
      pre.all (fun e => !e.isEndHook) = true ∧
      post.all (fun e => !e.isEndHook) = true := by
  have hpost : ((g cur target d).1.map (EngineEv.hookEv (T := T))).all
      (fun e => !e.isEndHook) = true :=
    all_map_hookEv _ _ (by intro e; simp [EngineEv.isEndHook])
  rcases hstart with hnone | ⟨f, hf, hres⟩
  · simp only [FSM.transitionTo, hcan, if_true, hnone, FSM.commitPhase, hend]
    refine ⟨by trivial, by trivial, by trivial, [], (g cur target d).1.map EngineEv.hookEv,
      by simp, by simp, hpost⟩
  · simp only [FSM.transitionTo, hcan, if_true, hf, hres, FSM.commitPhase, hend]
    refine ⟨by trivial, by trivial, by trivial,
      [EngineEv.guardEval cur target .proceed], (g cur target d).1.map EngineEv.hookEv,
      by simp, by simp [EngineEv.isEndHook], hpost⟩

/-- C9: canTransitionTo is true exactly when the target appears in the
destination list stored in the transition graph for the current state, and
getNextStates returns exactly that destination list, in its declared
order. -/
theorem canTransitionTo_iff_mem_getNextStates {T D E Ev : Type} [DecidableEq T]
    (cfg : StateMachineConfig T D E Ev) (cur target : T) :
    (FSM.canTransitionTo cfg cur target = true ↔ target ∈ destsOf cfg.transitions cur) ∧
    FSM.getNextStates cfg cur = destsOf cfg.transitions cur :=
  ⟨by simp [FSM.canTransitionTo, neg_one_lt_idxOf_iff], rfl⟩

/-- A small concrete engine configuration with no callbacks, used to
exercise the general engine theorems. -/
def cfgBare : StateMachineConfig String Unit String Unit :=
  ⟨[("A", ["B", "C"]), ("B", []), ("C", [])], none, none, none⟩

/-- A small concrete engine configuration with an end hook that counts
invocations in the data payload. -/
def cfgCounting : StateMachineConfig String Nat String Unit :=
  ⟨[("A", ["B"]), ("B", [])], none, some (fun _ _ d => ([], d + 1)), none⟩

/-- Witness for C4 at a concrete rejected input: target not reachable,
no error handler configured, so the call is silent and the state is kept. -/
theorem transitionTo_rejection_spec_witness :
    (FSM.transitionTo cfgBare "A" "Z" ()).currentState = "A" ∧
    (FSM.transitionTo cfgBare "A" "Z" ()).exn = none :=
  ⟨(transitionTo_rejection_spec cfgBare "A" "Z" () none (Or.inl ⟨by decide, rfl⟩)).1,
    (transitionTo_rejection_spec cfgBare "A" "Z" () none
      (Or.inl ⟨by decide, rfl⟩)).2.2.2.1 rfl⟩

/-- Witness for C6 at a concrete successful input. -/
theorem transitionTo_success_spec_witness :
    (FSM.transitionTo cfgCounting "A" "B" 4).currentState = "B" ∧
    (FSM.transitionTo cfgCounting "A" "B" 4).data = 5 :=
  ⟨(transitionTo_success_spec cfgCounting "A" "B" 4 (fun _ _ d => ([], d + 1))
      (by decide) rfl (Or.inl rfl)).1,
    (transitionTo_success_spec cfgCounting "A" "B" 4 (fun _ _ d => ([], d + 1))
      (by decide) rfl (Or.inl rfl)).2.2.1⟩

/-- Witness for C9 at a concrete input. -/
theorem canTransitionTo_iff_mem_getNextStates_witness :
    FSM.canTransitionTo cfgBare "A" "B" = true ∧
    FSM.getNextStates cfgBare "A" = ["B", "C"] :=
  ⟨(canTransitionTo_iff_mem_getNextStates cfgBare "A" "B").1.mpr (by decide),
    ((canTransitionTo_iff_mem_getNextStates cfgBare "A" "B").2).trans (by decide)⟩

namespace OrderStateMachine

/-- One iteration of the merge loop in
OrderStateMachine.mergeTransitionDefinitions: for the override key kv.1,
when merged already has the key, reassign its destination list to the
concatenation with the override destinations; otherwise add the override
entry at the end (JavaScript object insertion order). -/
def mergeStep {T : Type} [DecidableEq T] (merged : List (T × List T))
    (kv : T × List T) : List (T × List T) :=
  if hasKey merged kv.1 then
    merged.map (fun p => if p.1 = kv.1 then (p.1, p.2 ++ kv.2) else p)
  else merged ++ [kv]

/-- OrderStateMachine.mergeTransitionDefinitions.  The source initializes
`const merged = defaultTranstions`, so merged is an alias of the base
object and every update of merged is an in-place update of the base; the
returned graph therefore is the base object itself, in its mutated state.
The override's key-to-entry mapping is never assigned.  This value-level
function describes the result of one call on fresh, alias-free objects (a
first build); the heap model further below also carries object identity,
and with it the aliases the missing-key branch installs and what they do
to repeated builds. -/
def mergeTransitionDefinitions {T : Type} [DecidableEq T]
    (defaultTranstions : List (T × List T))
    (customTranstitions : Option (List (T × List T))) : List (T × List T) :=
  match customTranstitions with
  | none => defaultTranstions
  | some custom => custom.foldl mergeStep defaultTranstions

end OrderStateMachine

/-! Association-list lemmas for the merge. -/

theorem destsOf_cons {T : Type} [DecidableEq T] (p : T × List T)
    (m : List (T × List T)) (k : T) :
    destsOf (p :: m) k = if p.1 = k then p.2 else destsOf m k := by
  by_cases hp : p.1 = k
  · simp [destsOf, List.find?_cons_of_pos, hp]
  · simp [destsOf, List.find?_cons_of_neg, hp]

theorem hasKey_cons {T : Type} [DecidableEq T] (p : T × List T)
    (m : List (T × List T)) (k : T) :
    hasKey (p :: m) k = if p.1 = k then true else hasKey m k := by
  by_cases hp : p.1 = k
  · simp [hasKey, List.find?_cons_of_pos, hp]
  · simp [hasKey, List.find?_cons_of_neg, hp]

theorem hasKey_iff_mem_keysOf {T : Type} [DecidableEq T]
    (m : List (T × List T)) (k : T) :
    hasKey m k = true ↔ k ∈ keysOf m := by
  induction m with
  | nil => simp [hasKey, keysOf]
  | cons p m' ih =>
      rw [hasKey_cons]
      by_cases hp : p.1 = k
      · simp [hp, keysOf]
      · have : ¬ k = p.1 := fun h => hp h.symm
        simp [hp, keysOf, this, ih, keysOf]

theorem destsOf_eq_nil_of_not_hasKey {T : Type} [DecidableEq T]
    (m : List (T × List T)) (k : T) (h : hasKey m k = false) :
    destsOf m k = [] := by
  induction m with
  | nil => rfl
  | cons p m' ih =>
      rw [hasKey_cons] at h
      rw [destsOf_cons]
      by_cases hp : p.1 = k
      · simp [hp] at h
      · simp only [hp, if_false]
        exact ih (by simpa [hp] using h)

theorem destsOf_map_upd {T : Type} [DecidableEq T] (m : List (T × List T))
    (kv : T × List T) (k : T) :
    destsOf (m.map (fun p => if p.1 = kv.1 then (p.1, p.2 ++ kv.2) else p)) k =
      if hasKey m k = true ∧ k = kv.1 then destsOf m k ++ kv.2 else destsOf m k := by
  induction m with
  | nil => simp [destsOf, hasKey]
  | cons p m' ih =>
      simp only [List.map_cons]
      by_cases hp : p.1 = k
      · by_cases hkv : k = kv.1
        · have hpkv : p.1 = kv.1 := hp.trans hkv
          rw [destsOf_cons, destsOf_cons]
          simp [hpkv, hp, hasKey_cons, hkv]
        · have hpkv : ¬ p.1 = kv.1 := fun h => hkv (hp.symm.trans h)
          rw [destsOf_cons, destsOf_cons]
          simp [hpkv, hp, hasKey_cons, hkv]
      · by_cases hpkv : p.1 = kv.1
        · have hkkv : ¬ kv.1 = k := fun h => hp (hpkv.trans h)
          have hkkv' : ¬ k = kv.1 := fun h => hkkv h.symm
          simp [destsOf_cons, hpkv, hp, hkkv, hkkv', ih, hasKey_cons]
        · rw [destsOf_cons, destsOf_cons]
          simp only [hpkv, if_false, hp]
          rw [ih]
          simp [hasKey_cons, hp]

theorem hasKey_map_upd {T : Type} [DecidableEq T] (m : List (T × List T))
    (kv : T × List T) (k : T) :
    hasKey (m.map (fun p => if p.1 = kv.1 then (p.1, p.2 ++ kv.2) else p)) k =
      hasKey m k := by
  induction m with
  | nil => rfl
  | cons p m' ih =>
      simp only [List.map_cons]
      by_cases hpkv : p.1 = kv.1
      · rw [hasKey_cons, hasKey_cons]
        simp [hpkv, ih]
      · rw [hasKey_cons, hasKey_cons]
        simp [hpkv, ih]

theorem destsOf_append_single {T : Type} [DecidableEq T] (m : List (T × List T))
    (kv : T × List T) (k : T) :
    destsOf (m ++ [kv]) k =
      if hasKey m k = true then destsOf m k
      else if kv.1 = k then kv.2 else [] := by
  induction m with
  | nil => by_cases hk : kv.1 = k <;> simp [destsOf_cons, hasKey, destsOf, hk]
  | cons p m' ih =>
      rw [List.cons_append, destsOf_cons, destsOf_cons, hasKey_cons]
      by_cases hp : p.1 = k
      · simp [hp]
      · simp [hp, ih]

theorem hasKey_append_single {T : Type} [DecidableEq T] (m : List (T × List T))
    (kv : T × List T) (k : T) :
    hasKey (m ++ [kv]) k = (hasKey m k || decide (kv.1 = k)) := by
  induction m with
  | nil => by_cases hk : kv.1 = k <;> simp [hasKey_cons, hasKey, hk]
  | cons p m' ih =>
      rw [List.cons_append, hasKey_cons, hasKey_cons]
      by_cases hp : p.1 = k
      · simp [hp]
      · simp [hp, ih]

theorem destsOf_mergeStep {T : Type} [DecidableEq T] (m : List (T × List T))
    (kv : T × List T) (k : T) :
    destsOf (OrderStateMachine.mergeStep m kv) k =
      if k = kv.1 then
        (if hasKey m kv.1 = true then destsOf m kv.1 ++ kv.2 else kv.2)
      else destsOf m k := by
  unfold OrderStateMachine.mergeStep
  by_cases hm : hasKey m kv.1
  · rw [if_pos hm, destsOf_map_upd]
    by_cases hk : k = kv.1
    · subst hk
      simp [hm]
    · simp [hk]
  · rw [if_neg hm, destsOf_append_single]
    by_cases hk : k = kv.1
    · subst hk
      have hmf : hasKey m kv.1 = false := by simpa using hm
      simp [hmf]
    · have hk' : ¬ kv.1 = k := fun h => hk h.symm
      by_cases hmk : hasKey m k
      · simp [hmk, hk]
      · have : hasKey m k = false := by simpa using hmk
        simp [this, hk, hk', destsOf_eq_nil_of_not_hasKey m k this]

theorem hasKey_mergeStep {T : Type} [DecidableEq T] (m : List (T × List T))
    (kv : T × List T) (k : T) :
    hasKey (OrderStateMachine.mergeStep m kv) k =
      (hasKey m k || decide (kv.1 = k)) := by
  unfold OrderStateMachine.mergeStep
  by_cases hm : hasKey m kv.1
  · rw [if_pos hm, hasKey_map_upd]
    by_cases hk : kv.1 = k
    · subst hk
      simp [hm]
    · simp [hk]
  · rw [if_neg hm, hasKey_append_single]

theorem destsOf_foldl_of_not_hasKey {T : Type} [DecidableEq T]
    (custom : List (T × List T)) :
    ∀ (m : List (T × List T)) (k : T), hasKey custom k = false →
      destsOf (custom.foldl OrderStateMachine.mergeStep m) k = destsOf m k := by
  induction custom with
  | nil => intro m k _; rfl
  | cons kv rest ih =>
      intro m k hk
      rw [hasKey_cons] at hk
      by_cases hkv : kv.1 = k
      · simp [hkv] at hk
      · rw [List.foldl_cons, ih (OrderStateMachine.mergeStep m kv) k (by simpa [hkv] using hk),
          destsOf_mergeStep]
        exact if_neg (fun h : k = kv.1 => hkv h.symm)

theorem hasKey_foldl_mono {T : Type} [DecidableEq T]
    (custom : List (T × List T)) :
    ∀ (m : List (T × List T)) (k : T), hasKey m k = true →
      hasKey (custom.foldl OrderStateMachine.mergeStep m) k = true := by
  induction custom with
  | nil => intro m k hk; exact hk
  | cons kv rest ih =>
      intro m k hk
      rw [List.foldl_cons]
      exact ih _ k (by rw [hasKey_mergeStep, hk]; rfl)

/-- Value of the merged graph at each override key: base destinations
first, override destinations appended, and the override entry alone when
the base lacks the key. -/
theorem destsOf_merge {T : Type} [DecidableEq T] (custom : List (T × List T)) :
    ∀ (base : List (T × List T)) (k : T), (keysOf custom).Nodup →
      hasKey custom k = true →
      destsOf (custom.foldl OrderStateMachine.mergeStep base) k =
        if hasKey base k = true then destsOf base k ++ destsOf custom k
        else destsOf custom k := by
  induction custom with
  | nil =>
      intro base k _ hk
      simp [hasKey] at hk
  | cons kv rest ih =>
      intro base k hnd hk
      have hnd' : (keysOf rest).Nodup := by
        have : keysOf (kv :: rest) = kv.1 :: keysOf rest := rfl
        rw [this] at hnd
        exact hnd.of_cons
      rw [List.foldl_cons]
      by_cases hkv : kv.1 = k
      · subst hkv
        have hmem : kv.1 ∉ keysOf rest := by
          have : keysOf (kv :: rest) = kv.1 :: keysOf rest := rfl
          rw [this] at hnd
          exact (List.nodup_cons.mp hnd).1
        have hrest : hasKey rest kv.1 = false := by
          by_cases h : hasKey rest kv.1
          · exact absurd ((hasKey_iff_mem_keysOf rest kv.1).mp h) hmem
          · simpa using h
        rw [destsOf_foldl_of_not_hasKey rest _ _ hrest, destsOf_mergeStep]
        simp [destsOf_cons]
      · have hrest : hasKey rest k = true := by
          rw [hasKey_cons] at hk
          simpa [hkv] using hk
        rw [ih (OrderStateMachine.mergeStep base kv) k hnd' hrest,
          hasKey_mergeStep, destsOf_mergeStep]
        simp only [hkv, decide_eq_true_eq, decide_eq_false hkv, Bool.or_false]
        have hkkv : ¬ k = kv.1 := fun h => hkv h.symm
        simp [hkkv, destsOf_cons, hkv]

/-- C8: for every base graph and override graph with well-formed keys
(JavaScript object keys are unique) and every key of the override, the
merged graph stores the base destination list followed by the override
destination list when the base has the key (append, never replace,
duplicates allowed), and stores the override destination list when the
base lacks the key (inserted verbatim). -/
theorem mergeTransitionDefinitions_append_spec {T : Type} [DecidableEq T]
    (base custom : List (T × List T)) (k : T)
    (hnd : (keysOf custom).Nodup) (hk : hasKey custom k = true) :
    destsOf (OrderStateMachine.mergeTransitionDefinitions base (some custom)) k =
      if hasKey base k = true then destsOf base k ++ destsOf custom k
      else destsOf custom k :=
  destsOf_merge custom base k hnd hk

/-- Witness for C8: merging override S maps-to [X] (and a fresh key N)
into a base containing S maps-to [Y] yields [Y, X] at S and [Z] at N. -/
theorem mergeTransitionDefinitions_append_spec_witness :
    destsOf (OrderStateMachine.mergeTransitionDefinitions [("S", ["Y"])]
      (some [("S", ["X"]), ("N", ["Z"])])) "S" = ["Y", "X"] ∧
    destsOf (OrderStateMachine.mergeTransitionDefinitions [("S", ["Y"])]
      (some [("S", ["X"]), ("N", ["Z"])])) "N" = ["Z"] :=
  ⟨(mergeTransitionDefinitions_append_spec [("S", ["Y"])] [("S", ["X"]), ("N", ["Z"])]
      "S" (by decide) (by decide)).trans (by decide),
    (mergeTransitionDefinitions_append_spec [("S", ["Y"])] [("S", ["X"]), ("N", ["Z"])]
      "N" (by decide) (by decide)).trans (by decide)⟩

/-! A heap model of the merge, carrying object identity.  The value-level
function above describes one call on fresh, alias-free objects; the
definitions below also record which entry objects the graphs share, which
is what repeated configuration builds observe: `merged = defaultTranstions`
aliases the base graph object, and `merged[key] = customTranstitions[key]`
installs the override's own entry object into the base, so a later build
finds that key present and writes the shared entry in place. -/

/-- A heap of entry objects: each reference holds the current value of
the to array of one Transitions entry.  The merge reassigns the to
property wholesale, so the array value can live in the entry cell. -/
abbrev EntryHeap (T : Type) := List (Nat × List T)

/-- A Transitions graph object: keys in insertion order, each holding a
reference to its entry object. -/
abbrev GraphObj (T : Type) := List (T × Nat)

/-- Read the to array of the entry object behind a reference. -/
def heapGet {T : Type} (h : EntryHeap T) (r : Nat) : List T :=
  match h.find? (fun c => decide (c.1 = r)) with
  | some c => c.2
  | none => []

/-- Reassign the to array of the entry object behind a reference. -/
def heapSet {T : Type} (h : EntryHeap T) (r : Nat) (v : List T) : EntryHeap T :=
  h.map (fun c => if c.1 = r then (c.1, v) else c)

/-- One iteration of the merge loop over the heap, for the override key
kv.1 whose entry object is the reference kv.2: when merged already has
the key, the entry object merged[key] is written in place, its to array
becoming the concatenation with the to array read from the override entry
(the same cell when the two are aliased); when merged lacks the key, the
override's entry object itself is installed into merged, an alias, not a
copy. -/
def mergeRefStep {T : Type} [DecidableEq T] (st : EntryHeap T × GraphObj T)
    (kv : T × Nat) : EntryHeap T × GraphObj T :=
  match st.2.find? (fun p => decide (p.1 = kv.1)) with
  | some p => (heapSet st.1 p.2 (heapGet st.1 p.2 ++ heapGet st.1 kv.2), st.2)
  | none => (st.1, st.2 ++ [kv])

/-- mergeTransitionDefinitions over the heap: merged is initialized as an
alias of the base graph object, the loop walks the override keys in
order, and the returned graph object is merged, that is, the base graph
object itself in its mutated state.  The override graph object's own
key-to-entry mapping is never assigned, but entry objects reachable from
it can be written: once an earlier call has installed an override entry
into the base by alias, the present call finds the key and writes the
shared entry. -/
def mergeTransitionDefinitionsRef {T : Type} [DecidableEq T] (h : EntryHeap T)
    (defaultTranstions : GraphObj T) (customTranstitions : Option (GraphObj T)) :
    EntryHeap T × GraphObj T :=
  match customTranstitions with
  | none => (h, defaultTranstions)
  | some custom => custom.foldl mergeRefStep (h, defaultTranstions)

/-- The observable value of a graph object under a heap. -/
def graphValue {T : Type} (h : EntryHeap T) (g : GraphObj T) : List (T × List T) :=
  g.map (fun p => (p.1, heapGet h p.2))

/-- Heap and base graph object after n configuration builds that all pass
the same override graph object: orderStateTransitions is a module-level
constant shared by every OrderStateMachine construction, and each build
returns the base object itself mutated, so build n+1 starts from the heap
and the base mapping that build n left behind. -/
def buildsRef {T : Type} [DecidableEq T] (h : EntryHeap T) (base : GraphObj T)
    (custom : Option (GraphObj T)) : Nat → EntryHeap T × GraphObj T
  | 0 => (h, base)
  | n + 1 =>
      let s := buildsRef h base custom n
      mergeTransitionDefinitionsRef s.1 s.2 custom

/-- Counterexample to C2 at a concrete input (base A maps-to [B];
override A maps-to [C] and N maps-to [D]; entry objects 0, 1, 2): after
two builds the caller-supplied override object observes a mutated entry —
its N entry was installed into the base by alias during build 1, and
build 2 then wrote it in place, doubling it to [D, D] — and the graph
the second build returned differs from the graph the first build
returned; the merge is neither pure with respect to the override nor
fresh per build. -/
theorem mergeTransitionDefinitions_not_pure_counterexample :
    graphValue (buildsRef [(0, ["B"]), (1, ["C"]), (2, ["D"])] [("A", 0)]
        (some [("A", 1), ("N", 2)]) 2).1 [("A", 1), ("N", 2)] ≠
      graphValue [(0, ["B"]), (1, ["C"]), (2, ["D"])] [("A", 1), ("N", 2)] ∧
    graphValue (buildsRef [(0, ["B"]), (1, ["C"]), (2, ["D"])] [("A", 0)]
        (some [("A", 1), ("N", 2)]) 2).1
      (buildsRef [(0, ["B"]), (1, ["C"]), (2, ["D"])] [("A", 0)]
        (some [("A", 1), ("N", 2)]) 2).2 ≠
    graphValue (buildsRef [(0, ["B"]), (1, ["C"]), (2, ["D"])] [("A", 0)]
        (some [("A", 1), ("N", 2)]) 1).1
      (buildsRef [(0, ["B"]), (1, ["C"]), (2, ["D"])] [("A", 0)]
        (some [("A", 1), ("N", 2)]) 1).2 := by
  decide

/-- C2 amended: mergeTransitionDefinitions returns the base graph object
itself mutated in place, and for a key the base lacks it installs the
override's own entry object into the base as an alias, not a copy;
builds are therefore not fresh, and the override is not preserved across
builds.  With base a maps-to bd and override a maps-to cd, n maps-to dd
(distinct keys, distinct entry objects): build 1 returns the merged value
a maps-to bd ++ cd, n maps-to dd and leaves the override value
untouched, but the returned mapping now holds the override's own n
entry; build 2 appends cd once more at the shared key and doubles the
aliased n entry in place, so the caller-supplied override now observes n
maps-to dd ++ dd; build 3 appends cd again and doubles the n entry
again. -/
theorem mergeTransitionDefinitionsRef_alias_accumulation
    (a n : String) (bd cd dd : List String) (han : a ≠ n) :
    graphValue (buildsRef [(0, bd), (1, cd), (2, dd)] [(a, 0)]
        (some [(a, 1), (n, 2)]) 1).1
      (buildsRef [(0, bd), (1, cd), (2, dd)] [(a, 0)]
        (some [(a, 1), (n, 2)]) 1).2 = [(a, bd ++ cd), (n, dd)] ∧
    graphValue (buildsRef [(0, bd), (1, cd), (2, dd)] [(a, 0)]
        (some [(a, 1), (n, 2)]) 1).1 [(a, 1), (n, 2)] = [(a, cd), (n, dd)] ∧
    (buildsRef [(0, bd), (1, cd), (2, dd)] [(a, 0)]
      (some [(a, 1), (n, 2)]) 1).2 = [(a, 0), (n, 2)] ∧
    graphValue (buildsRef [(0, bd), (1, cd), (2, dd)] [(a, 0)]
        (some [(a, 1), (n, 2)]) 2).1
      (buildsRef [(0, bd), (1, cd), (2, dd)] [(a, 0)]
        (some [(a, 1), (n, 2)]) 2).2 = [(a, bd ++ cd ++ cd), (n, dd ++ dd)] ∧
    graphValue (buildsRef [(0, bd), (1, cd), (2, dd)] [(a, 0)]
        (some [(a, 1), (n, 2)]) 2).1 [(a, 1), (n, 2)] =
      [(a, cd), (n, dd ++ dd)] ∧
    graphValue (buildsRef [(0, bd), (1, cd), (2, dd)] [(a, 0)]
        (some [(a, 1), (n, 2)]) 3).1
      (buildsRef [(0, bd), (1, cd), (2, dd)] [(a, 0)]
        (some [(a, 1), (n, 2)]) 3).2 =
      [(a, bd ++ cd ++ cd ++ cd), (n, dd ++ dd ++ dd ++ dd)] := by
  have e1 : mergeTransitionDefinitionsRef [(0, bd), (1, cd), (2, dd)] [(a, 0)]
      (some [(a, 1), (n, 2)]) =
      ([(0, bd ++ cd), (1, cd), (2, dd)], [(a, 0), (n, 2)]) := by
    simp [mergeTransitionDefinitionsRef, mergeRefStep, heapGet, heapSet,
      List.find?, han]
  have e2 : mergeTransitionDefinitionsRef [(0, bd ++ cd), (1, cd), (2, dd)]
      [(a, 0), (n, 2)] (some [(a, 1), (n, 2)]) =
      ([(0, (bd ++ cd) ++ cd), (1, cd), (2, dd ++ dd)], [(a, 0), (n, 2)]) := by
    simp [mergeTransitionDefinitionsRef, mergeRefStep, heapGet, heapSet,
      List.find?, han]
  have e3 : mergeTransitionDefinitionsRef [(0, (bd ++ cd) ++ cd), (1, cd), (2, dd ++ dd)]
      [(a, 0), (n, 2)] (some [(a, 1), (n, 2)]) =
      ([(0, ((bd ++ cd) ++ cd) ++ cd), (1, cd), (2, (dd ++ dd) ++ (dd ++ dd))],
        [(a, 0), (n, 2)]) := by
    simp [mergeTransitionDefinitionsRef, mergeRefStep, heapGet, heapSet,
      List.find?, han]
  have b1 : buildsRef [(0, bd), (1, cd), (2, dd)] [(a, 0)]
      (some [(a, 1), (n, 2)]) 1 =
      ([(0, bd ++ cd), (1, cd), (2, dd)], [(a, 0), (n, 2)]) := e1
  have b2 : buildsRef [(0, bd), (1, cd), (2, dd)] [(a, 0)]
      (some [(a, 1), (n, 2)]) 2 =
      ([(0, (bd ++ cd) ++ cd), (1, cd), (2, dd ++ dd)], [(a, 0), (n, 2)]) := by
    have hu : buildsRef [(0, bd), (1, cd), (2, dd)] [(a, 0)]
        (some [(a, 1), (n, 2)]) 2 =
        mergeTransitionDefinitionsRef
          (buildsRef [(0, bd), (1, cd), (2, dd)] [(a, 0)] (some [(a, 1), (n, 2)]) 1).1
          (buildsRef [(0, bd), (1, cd), (2, dd)] [(a, 0)] (some [(a, 1), (n, 2)]) 1).2
          (some [(a, 1), (n, 2)]) := rfl
    rw [hu, b1]
    exact e2
  have b3 : buildsRef [(0, bd), (1, cd), (2, dd)] [(a, 0)]
      (some [(a, 1), (n, 2)]) 3 =
      ([(0, ((bd ++ cd) ++ cd) ++ cd), (1, cd), (2, (dd ++ dd) ++ (dd ++ dd))],
        [(a, 0), (n, 2)]) := by
    have hu : buildsRef [(0, bd), (1, cd), (2, dd)] [(a, 0)]
        (some [(a, 1), (n, 2)]) 3 =
        mergeTransitionDefinitionsRef
          (buildsRef [(0, bd), (1, cd), (2, dd)] [(a, 0)] (some [(a, 1), (n, 2)]) 2).1
          (buildsRef [(0, bd), (1, cd), (2, dd)] [(a, 0)] (some [(a, 1), (n, 2)]) 2).2
          (some [(a, 1), (n, 2)]) := rfl
    rw [hu, b2]
    exact e3
  refine ⟨?_, ?_, ?_, ?_, ?_, ?_⟩
  · rw [b1]
    simp [graphValue, heapGet, List.find?]
  · rw [b1]
    simp [graphValue, heapGet, List.find?]
  · rw [b1]
  · rw [b2]
    simp [graphValue, heapGet, List.find?, List.append_assoc]
  · rw [b2]
    simp [graphValue, heapGet, List.find?]
  · rw [b3]
    simp [graphValue, heapGet, List.find?, List.append_assoc]

/-- Witness for the amended C2 at a concrete input: after two builds the
override observes its N entry doubled, and the third build doubles the
aliased entry again while appending the override destination once more at
the shared key. -/
theorem mergeTransitionDefinitionsRef_alias_accumulation_witness :
    graphValue (buildsRef [(0, ["B"]), (1, ["C"]), (2, ["D"])] [("A", 0)]
        (some [("A", 1), ("N", 2)]) 2).1 [("A", 1), ("N", 2)] =
      [("A", ["C"]), ("N", ["D", "D"])] ∧
    graphValue (buildsRef [(0, ["B"]), (1, ["C"]), (2, ["D"])] [("A", 0)]
        (some [("A", 1), ("N", 2)]) 3).1
      (buildsRef [(0, ["B"]), (1, ["C"]), (2, ["D"])] [("A", 0)]
        (some [("A", 1), ("N", 2)]) 3).2 =
      [("A", ["B", "C", "C", "C"]), ("N", ["D", "D", "D", "D"])] :=
  ⟨((mergeTransitionDefinitionsRef_alias_accumulation "A" "N" ["B"] ["C"] ["D"]
      (by decide)).2.2.2.2.1).trans (by decide),
    ((mergeTransitionDefinitionsRef_alias_accumulation "A" "N" ["B"] ["C"] ["D"]
      (by decide)).2.2.2.2.2).trans (by decide)⟩

/-- Order states named by the sources in scope.  The full OrderState union
lives in order-state.ts; the adapter logic under verification mentions
exactly these states. -/
inductive OrderState where
  | AddingItems
  | ArrangingPayment
  | PaymentAuthorized
  | PaymentSettled
  | Cancelled
deriving DecidableEq, Repr

/-- The slice of the Order entity the adapter reads and writes: the
current state, the number of lines, the presence of a customer, the
active flag and the placement timestamp (a Date, modelled as a Nat).  The
ambient request context is opaque to the adapter and only forwarded to
the history service, so it is not part of the model. -/
structure Order where
  id : Nat
  state : OrderState
  linesCount : Nat
  hasCustomer : Bool
  active : Bool
  orderPlacedAt : Option Nat
deriving DecidableEq, Repr

/-- Invocations the adapter makes on configured hooks and downstream
services, recorded in the trace: the strategy or config end hook, the
strategy or config error hook, the stock-movement call, the promotion
call, and the history entry creation with its payload. -/
inductive AdapterEv where
  | strategyEndCall (fromState toState : OrderState)
  | processEndCall (fromState toState : OrderState)
  | strategyErrorCall (fromState toState : OrderState) (msg : Option String)
  | processErrorCall (fromState toState : OrderState) (msg : Option String)
  | stockCreateSales (orderId : Nat)
  | promotionApply (orderId : Nat)
  | historyEntry (orderId : Nat) (fromState toState : OrderState)
deriving DecidableEq, Repr

/-- The IllegalOperationError raised by the adapter onError wrapper,
carrying the message and the variables object with fromState and
toState. -/
structure IllegalOperationError where
  message : String
  fromState : OrderState
  toState : OrderState
deriving DecidableEq, Repr

/-- One layer of optional lifecycle hooks, as offered both by the
configuration (orderOptions.process) and by the pluggable strategy
(orderOptions.orderProcessStrategy): an optional start guard returning a
resolved guard value, and presence flags for the end and error hooks,
whose invocations are recorded as events. -/
structure OrderProcessHooks where
  onTransitionStart : Option (OrderState → OrderState → Order → GuardResult)
  onTransitionEnd : Bool
  onTransitionError : Bool

/-- Modelled from the spec: the default transition graph
orderStateTransitions is defined in order-state.ts, which is not among
the provided sources.  Sections 1 and 4 of the spec fix the lifecycle
AddingItems to ArrangingPayment to PaymentAuthorized and on to
PaymentSettled, with Cancelled as the cancellation state; this graph
records those transitions. -/
def orderStateTransitions : List (OrderState × List OrderState) :=
  [(.AddingItems, [.ArrangingPayment, .Cancelled]),
    (.ArrangingPayment, [.PaymentAuthorized, .PaymentSettled, .AddingItems, .Cancelled]),
    (.PaymentAuthorized, [.PaymentSettled, .Cancelled]),
    (.PaymentSettled, [.Cancelled]),
    (.Cancelled, [])]

/-- JavaScript a || b on an optional string: undefined and the empty
string are falsy and select the default. -/
def jsStringOr (msg : Option String) (dflt : String) : String :=
  match msg with
  | some m => if m = "" then dflt else m
  | none => dflt

namespace OrderStateMachine

/-- The private OrderStateMachine.onTransitionStart business rule: a
transition into ArrangingPayment is rejected with a message when the
order has no lines, and otherwise rejected with a message when it has no
customer; in every other case the rule returns no opinion. -/
def onTransitionStart (fromState toState : OrderState) (data : Order) : GuardResult :=
  if toState = .ArrangingPayment then
    if data.linesCount = 0 then
      .gstring "error.cannot-transition-to-payment-when-order-is-empty"
    else if data.hasCustomer = false then
      .gstring "error.cannot-transition-to-payment-without-customer"
    else .proceed
  else .proceed

/-- The private OrderStateMachine.onTransitionEnd business rule: on
entering PaymentAuthorized or PaymentSettled, deactivate the order, stamp
the placement timestamp, call the stock-movement service and the
promotion service; on entering Cancelled, deactivate the order; in every
case create a history entry carrying the two states. -/
def onTransitionEnd (now : Nat) (fromState toState : OrderState) (order : Order) :
    List AdapterEv × Order :=
  let o1 :=
    if toState = .PaymentAuthorized ∨ toState = .PaymentSettled then
      { order with active := false, orderPlacedAt := some now }
    else order
  let evs1 : List AdapterEv :=
    if toState = .PaymentAuthorized ∨ toState = .PaymentSettled then
      [.stockCreateSales order.id, .promotionApply order.id]
    else []
  let o2 := if toState = .Cancelled then { o1 with active := false } else o1
  (evs1 ++ [.historyEntry order.id fromState toState], o2)

/-- The composed onTransitionStart built by initConfig: the strategy
guard is evaluated when configured, otherwise the config-level guard,
otherwise the result is undefined; a resolved false or string is returned
as is, and any other value hands over to the built-in business rule. -/
def composedOnTransitionStart (strategy process : OrderProcessHooks) :
    OrderState → OrderState → Order → GuardResult :=
  fun fromState toState data =>
    let resolvedResult :=
      match strategy.onTransitionStart with
      | some g => g fromState toState data
      | none =>
          match process.onTransitionStart with
          | some g => g fromState toState data
          | none => GuardResult.proceed
    match resolvedResult with
    | .gfalse => .gfalse
    | .gstring s => .gstring s
    | .proceed => OrderStateMachine.onTransitionStart fromState toState data

/-- The composed onTransitionEnd built by initConfig: the strategy end
hook when configured, otherwise the config-level end hook when
configured, then always the built-in business rule. -/
def composedOnTransitionEnd (strategy process : OrderProcessHooks) (now : Nat) :
    OrderState → OrderState → Order → List AdapterEv × Order :=
  fun fromState toState data =>
    let pre : List AdapterEv :=
      if strategy.onTransitionEnd then [.strategyEndCall fromState toState]
      else if process.onTransitionEnd then [.processEndCall fromState toState]
      else []
    let r := OrderStateMachine.onTransitionEnd now fromState toState data
    (pre ++ r.1, r.2)

/-- The composed onError built by initConfig: the strategy error hook
when configured, otherwise the config-level error hook when configured,
then always a thrown IllegalOperationError carrying the forwarded message
(JavaScript-falsy values replaced by the generic message) and the two
states. -/
def composedOnError (strategy process : OrderProcessHooks) :
    OrderState → OrderState → Option String →
      List AdapterEv × Option IllegalOperationError :=
  fun fromState toState message =>
    let pre : List AdapterEv :=
      if strategy.onTransitionError then [.strategyErrorCall fromState toState message]
      else if process.onTransitionError then [.processErrorCall fromState toState message]
      else []
    (pre, some ⟨jsStringOr message "error.cannot-transition-order-from-to",
      fromState, toState⟩)

/-- OrderStateMachine.initConfig: the merged transition graph plus the
three composed hooks. -/
def initConfig (strategy process : OrderProcessHooks)
    (customTransitions : Option (List (OrderState × List OrderState))) (now : Nat) :
    StateMachineConfig OrderState Order IllegalOperationError AdapterEv :=
  ⟨mergeTransitionDefinitions orderStateTransitions customTransitions,
    some (composedOnTransitionStart strategy process),
    some (composedOnTransitionEnd strategy process now),
    some (composedOnError strategy process)⟩

end OrderStateMachine

/-- Events of one adapter transition call: the engine events of the inner
transitionTo run, followed, on normal return, by the adapter assignment of
the target state onto the entity (order.state = state). -/
inductive OSMEv where
  | engine (e : EngineEv OrderState AdapterEv)
  | writeEntityState (s : OrderState)
deriving DecidableEq, Repr

/-- Result of one adapter transition call: the events in order, the final
value of the order entity, and the error propagating out of the call when
one was thrown. -/
structure OrderTransitionOutcome where
  events : List OSMEv
  order : Order
  exn : Option IllegalOperationError
deriving DecidableEq, Repr

/-- OrderStateMachine.transition: constructs an engine scoped at
order.state over the merged config, awaits transitionTo, then assigns
order.state = state.  A thrown error skips the assignment and propagates;
the entity keeps the mutations made before the throw. -/
def OrderStateMachine.transition (strategy process : OrderProcessHooks)
    (customTransitions : Option (List (OrderState × List OrderState))) (now : Nat)
    (order : Order) (state : OrderState) : OrderTransitionOutcome :=
  let r := FSM.transitionTo
    (OrderStateMachine.initConfig strategy process customTransitions now)
    order.state state order
  match r.exn with
  | some e => ⟨r.events.map OSMEv.engine, r.data, some e⟩
  | none => ⟨r.events.map OSMEv.engine ++ [OSMEv.writeEntityState state],
      { r.data with state := state }, none⟩

theorem initConfig_transitions (strategy process : OrderProcessHooks)
    (custom : Option (List (OrderState × List OrderState))) (now : Nat) :
    (OrderStateMachine.initConfig strategy process custom now).transitions =
      OrderStateMachine.mergeTransitionDefinitions orderStateTransitions custom := rfl

theorem initConfig_onTransitionStart (strategy process : OrderProcessHooks)
    (custom : Option (List (OrderState × List OrderState))) (now : Nat) :
    (OrderStateMachine.initConfig strategy process custom now).onTransitionStart =
      some (OrderStateMachine.composedOnTransitionStart strategy process) := rfl

theorem initConfig_onTransitionEnd (strategy process : OrderProcessHooks)
    (custom : Option (List (OrderState × List OrderState))) (now : Nat) :
    (OrderStateMachine.initConfig strategy process custom now).onTransitionEnd =
      some (OrderStateMachine.composedOnTransitionEnd strategy process now) := rfl

theorem initConfig_onError (strategy process : OrderProcessHooks)
    (custom : Option (List (OrderState × List OrderState))) (now : Nat) :
    (OrderStateMachine.initConfig strategy process custom now).onError =
      some (OrderStateMachine.composedOnError strategy process) := rfl

/-! Shape of one adapter transition call, by case on the engine outcome. -/

theorem adapter_transition_success (strategy process : OrderProcessHooks)
    (custom : Option (List (OrderState × List OrderState))) (now : Nat)
    (order : Order) (target : OrderState)
    (hcan : FSM.canTransitionTo
      (OrderStateMachine.initConfig strategy process custom now) order.state target = true)
    (hg : OrderStateMachine.composedOnTransitionStart strategy process
      order.state target order = .proceed) :
    OrderStateMachine.transition strategy process custom now order target =
      ⟨OSMEv.engine (EngineEv.guardEval order.state target .proceed) ::
        OSMEv.engine (EngineEv.commit target) ::
        OSMEv.engine (EngineEv.endHook order.state target) ::
        ((OrderStateMachine.composedOnTransitionEnd strategy process now
            order.state target order).1.map
          (fun e => OSMEv.engine (EngineEv.hookEv e)) ++
          [OSMEv.writeEntityState target]),
        { (OrderStateMachine.composedOnTransitionEnd strategy process now
            order.state target order).2 with state := target },
        none⟩ := by
  unfold OrderStateMachine.transition
  simp [FSM.transitionTo, hcan, hg, FSM.commitPhase, FSM.runOnError,
    initConfig_onTransitionStart, initConfig_onTransitionEnd, initConfig_onError,
    Function.comp]

theorem adapter_transition_illegal (strategy process : OrderProcessHooks)
    (custom : Option (List (OrderState × List OrderState))) (now : Nat)
    (order : Order) (target : OrderState)
    (hcan : FSM.canTransitionTo
      (OrderStateMachine.initConfig strategy process custom now) order.state target = false) :
    OrderStateMachine.transition strategy process custom now order target =
      ⟨OSMEv.engine (EngineEv.errorHook order.state target none) ::
        (OrderStateMachine.composedOnError strategy process order.state target none).1.map
          (fun e => OSMEv.engine (EngineEv.hookEv e)),
        order,
        some ⟨"error.cannot-transition-order-from-to", order.state, target⟩⟩ := by
  unfold OrderStateMachine.transition
  simp [FSM.transitionTo, hcan, FSM.runOnError,
    initConfig_onTransitionStart, initConfig_onTransitionEnd, initConfig_onError,
    OrderStateMachine.composedOnError, jsStringOr, Function.comp]

theorem adapter_transition_guardString (strategy process : OrderProcessHooks)
    (custom : Option (List (OrderState × List OrderState))) (now : Nat)
    (order : Order) (target : OrderState) (s : String)
    (hcan : FSM.canTransitionTo
      (OrderStateMachine.initConfig strategy process custom now) order.state target = true)
    (hg : OrderStateMachine.composedOnTransitionStart strategy process
      order.state target order = .gstring s) :
    OrderStateMachine.transition strategy process custom now order target =
      ⟨OSMEv.engine (EngineEv.guardEval order.state target (.gstring s)) ::
        OSMEv.engine (EngineEv.errorHook order.state target (some s)) ::
        (OrderStateMachine.composedOnError strategy process order.state target (some s)).1.map
          (fun e => OSMEv.engine (EngineEv.hookEv e)),
        order,
        some ⟨jsStringOr (some s) "error.cannot-transition-order-from-to",
          order.state, target⟩⟩ := by
  unfold OrderStateMachine.transition
  simp [FSM.transitionTo, hcan, hg, FSM.runOnError,
    initConfig_onTransitionStart, initConfig_onTransitionEnd, initConfig_onError,
    OrderStateMachine.composedOnError, Function.comp]

theorem adapter_transition_guardFalse (strategy process : OrderProcessHooks)
    (custom : Option (List (OrderState × List OrderState))) (now : Nat)
    (order : Order) (target : OrderState)
    (hcan : FSM.canTransitionTo
      (OrderStateMachine.initConfig strategy process custom now) order.state target = true)
    (hg : OrderStateMachine.composedOnTransitionStart strategy process
      order.state target order = .gfalse) :
    OrderStateMachine.transition strategy process custom now order target =
      ⟨OSMEv.engine (EngineEv.guardEval order.state target .gfalse) ::
        OSMEv.engine (EngineEv.errorHook order.state target none) ::
        (OrderStateMachine.composedOnError strategy process order.state target none).1.map
          (fun e => OSMEv.engine (EngineEv.hookEv e)),
        order,
        some ⟨"error.cannot-transition-order-from-to", order.state, target⟩⟩ := by
  unfold OrderStateMachine.transition
  simp [FSM.transitionTo, hcan, hg, FSM.runOnError,
    initConfig_onTransitionStart, initConfig_onTransitionEnd, initConfig_onError,
    OrderStateMachine.composedOnError, jsStringOr, Function.comp]

theorem commitPhase_exn_none {T D E Ev : Type} [DecidableEq T]
    (cfg : StateMachineConfig T D E Ev) (cur target : T) (d : D)
    (pre : List (EngineEv T Ev)) :
    (FSM.commitPhase cfg cur target d pre).exn = none := by
  cases hc : cfg.onTransitionEnd with
  | none => simp [FSM.commitPhase, hc]
  | some g => simp [FSM.commitPhase, hc]

theorem transitionTo_exn_none_of_onError_none {T D E Ev : Type} [DecidableEq T]
    (cfg : StateMachineConfig T D E Ev) (cur target : T) (d : D)
    (h : cfg.onError = none) :
    (FSM.transitionTo cfg cur target d).exn = none := by
  unfold FSM.transitionTo
  by_cases hcan : FSM.canTransitionTo cfg cur target = true
  · cases hs : cfg.onTransitionStart with
    | none =>
        simp only [hcan, if_true]
        exact commitPhase_exn_none cfg cur target d _
    | some f =>
        cases hres : f cur target d with
        | gfalse => simp [hcan, hs, hres, runOnError_eq_of_none cfg cur target none h]
        | gstring s =>
            simp [hcan, hs, hres, runOnError_eq_of_none cfg cur target (some s) h]
        | proceed =>
            simp only [hcan, if_true, hs, hres]
            exact commitPhase_exn_none cfg cur target d _
  · have hcan' : FSM.canTransitionTo cfg cur target = false := by simpa using hcan
    simp [hcan', runOnError_eq_of_none cfg cur target none h]

/-- C7: the adapter onError wrapper first invokes the strategy error hook
when present, otherwise the config-level error hook, and then always
throws an IllegalOperationError carrying fromState and toState and either
the guard-supplied message or the generic message; and rejections never
escape the engine itself as raised failures: with no onError handler
configured, transitionTo propagates no error. -/
theorem composedOnError_spec {T D E Ev : Type} [DecidableEq T]
    (cfg : StateMachineConfig T D E Ev) (cur target : T) (d : D)
    (strategy process : OrderProcessHooks) (f t : OrderState) (msg : Option String) :
    (∃ err : IllegalOperationError,
      (OrderStateMachine.composedOnError strategy process f t msg).2 = some err ∧
      err.fromState = f ∧ err.toState = t ∧
      (msg = some err.message ∨
        err.message = "error.cannot-transition-order-from-to")) ∧
    (strategy.onTransitionError = true →
      (OrderStateMachine.composedOnError strategy process f t msg).1 =
        [AdapterEv.strategyErrorCall f t msg]) ∧
    (strategy.onTransitionError = false →
      (OrderStateMachine.composedOnError strategy process f t msg).1 =
        (if process.onTransitionError then [AdapterEv.processErrorCall f t msg]
          else [])) ∧
    (cfg.onError = none → (FSM.transitionTo cfg cur target d).exn = none) := by
  refine ⟨⟨⟨jsStringOr msg "error.cannot-transition-order-from-to", f, t⟩, rfl, rfl, rfl, ?_⟩,
    ?_, ?_, fun h => transitionTo_exn_none_of_onError_none cfg cur target d h⟩
  · cases msg with
    | none => exact Or.inr rfl
    | some m =>
        by_cases hm : m = ""
        · exact Or.inr (by simp [jsStringOr, hm])
        · exact Or.inl (by simp [jsStringOr, hm])
  · intro hstrat
    simp [OrderStateMachine.composedOnError, hstrat]
  · intro hstrat
    simp [OrderStateMachine.composedOnError, hstrat]

/-- Hooks with nothing configured. -/
def hooksNone : OrderProcessHooks := ⟨none, false, false⟩

/-- Hooks with only the strategy error hook configured. -/
def hooksStratErr : OrderProcessHooks := ⟨none, false, true⟩

/-- Witness for C7 at concrete inputs: the strategy error hook is the one
invoked, the thrown error carries the guard message, and an engine with no
onError handler rejects silently. -/
theorem composedOnError_spec_witness :
    (OrderStateMachine.composedOnError hooksStratErr hooksNone OrderState.AddingItems
        OrderState.Cancelled (some "boom")).1 =
      [AdapterEv.strategyErrorCall OrderState.AddingItems OrderState.Cancelled
        (some "boom")] ∧
    (OrderStateMachine.composedOnError hooksStratErr hooksNone OrderState.AddingItems
        OrderState.Cancelled (some "boom")).2 =
      some ⟨"boom", OrderState.AddingItems, OrderState.Cancelled⟩ ∧
    (FSM.transitionTo cfgBare "A" "Z" ()).exn = none := by
  refine ⟨(composedOnError_spec cfgBare "A" "Z" () hooksStratErr hooksNone
      OrderState.AddingItems OrderState.Cancelled (some "boom")).2.1 rfl,
    by decide,
    (composedOnError_spec cfgBare "A" "Z" () hooksStratErr hooksNone
      OrderState.AddingItems OrderState.Cancelled (some "boom")).2.2.2 rfl⟩

/-- C5: the composed start guard evaluates the strategy guard first,
otherwise the config-level guard, and the built-in rule runs exactly when
the earlier guard returned no opinion; the built-in rule rejects a
transition into ArrangingPayment with the order-is-empty message when the
order has no lines and with the without-customer message when it has
lines but no customer; end to end, an empty order sent to
ArrangingPayment is rejected with the order-is-empty message and its
state field is unchanged. -/
theorem composedOnTransitionStart_spec (strategy process : OrderProcessHooks)
    (f t : OrderState) (d : Order) (now : Nat) :
    (∀ g, strategy.onTransitionStart = some g → g f t d ≠ .proceed →
      OrderStateMachine.composedOnTransitionStart strategy process f t d = g f t d) ∧
    (∀ g, strategy.onTransitionStart = none → process.onTransitionStart = some g →
      g f t d ≠ .proceed →
      OrderStateMachine.composedOnTransitionStart strategy process f t d = g f t d) ∧
    ((strategy.onTransitionStart = none ∧ process.onTransitionStart = none) ∨
      (∃ g, strategy.onTransitionStart = some g ∧ g f t d = .proceed) ∨
      (strategy.onTransitionStart = none ∧
        ∃ g, process.onTransitionStart = some g ∧ g f t d = .proceed) →
      OrderStateMachine.composedOnTransitionStart strategy process f t d =
        OrderStateMachine.onTransitionStart f t d) ∧
    (OrderStateMachine.onTransitionStart f .ArrangingPayment d =
      (if d.linesCount = 0 then
        .gstring "error.cannot-transition-to-payment-when-order-is-empty"
      else if d.hasCustomer = false then
        .gstring "error.cannot-transition-to-payment-without-customer"
      else .proceed)) ∧
    (strategy.onTransitionStart = none → process.onTransitionStart = none →
      d.linesCount = 0 → d.state = .AddingItems →
      (OrderStateMachine.transition strategy process none now d
          .ArrangingPayment).order.state = .AddingItems ∧
      (OrderStateMachine.transition strategy process none now d
          .ArrangingPayment).exn =
        some ⟨"error.cannot-transition-to-payment-when-order-is-empty",
          .AddingItems, .ArrangingPayment⟩) := by
  refine ⟨?_, ?_, ?_, ?_, ?_⟩
  · intro g hg hne
    cases hres : g f t d with
    | gfalse => simp [OrderStateMachine.composedOnTransitionStart, hg, hres]
    | gstring s => simp [OrderStateMachine.composedOnTransitionStart, hg, hres]
    | proceed => exact absurd hres hne
  · intro g hs hg hne
    cases hres : g f t d with
    | gfalse => simp [OrderStateMachine.composedOnTransitionStart, hs, hg, hres]
    | gstring s => simp [OrderStateMachine.composedOnTransitionStart, hs, hg, hres]
    | proceed => exact absurd hres hne
  · intro h
    rcases h with ⟨hs, hp⟩ | ⟨g, hg, hres⟩ | ⟨hs, g, hp, hres⟩
    · simp [OrderStateMachine.composedOnTransitionStart, hs, hp]
    · simp [OrderStateMachine.composedOnTransitionStart, hg, hres]
    · simp [OrderStateMachine.composedOnTransitionStart, hs, hp, hres]
  · simp [OrderStateMachine.onTransitionStart]
  · intro hs hp hl hst
    have hcan : FSM.canTransitionTo
        (OrderStateMachine.initConfig strategy process none now) d.state
        .ArrangingPayment = true := by
      rw [hst]
      rfl
    have hg : OrderStateMachine.composedOnTransitionStart strategy process
        d.state .ArrangingPayment d =
        .gstring "error.cannot-transition-to-payment-when-order-is-empty" := by
      simp [OrderStateMachine.composedOnTransitionStart, hs, hp,
        OrderStateMachine.onTransitionStart, hl]
    rw [adapter_transition_guardString strategy process none now d .ArrangingPayment
      _ hcan hg]
    exact ⟨hst, by simp [jsStringOr, hst]⟩

/-- Hooks whose strategy guard rejects every transition. -/
def hooksStratReject : OrderProcessHooks := ⟨some (fun _ _ _ => .gfalse), false, false⟩

/-- An order with no lines and no customer, in the AddingItems state. -/
def orderEmpty : Order := ⟨1, .AddingItems, 0, false, true, none⟩

/-- Witness for C5 at concrete inputs: a rejecting strategy guard wins,
and the empty order is rejected on entering ArrangingPayment with the
order-is-empty message. -/
theorem composedOnTransitionStart_spec_witness :
    OrderStateMachine.composedOnTransitionStart hooksStratReject hooksNone
      OrderState.AddingItems OrderState.Cancelled orderEmpty = .gfalse ∧
    (OrderStateMachine.transition hooksNone hooksNone none 0 orderEmpty
        OrderState.ArrangingPayment).exn =
      some ⟨"error.cannot-transition-to-payment-when-order-is-empty",
        OrderState.AddingItems, OrderState.ArrangingPayment⟩ :=
  ⟨(composedOnTransitionStart_spec hooksStratReject hooksNone
        OrderState.AddingItems OrderState.Cancelled orderEmpty 0).1
      (fun _ _ _ => .gfalse) rfl (by decide),
    ((composedOnTransitionStart_spec hooksNone hooksNone
        OrderState.AddingItems OrderState.ArrangingPayment orderEmpty 0).2.2.2.2
      rfl rfl rfl rfl).2⟩

/-- An order with lines and a customer, in the AddingItems state. -/
def orderReady : Order := ⟨2, .AddingItems, 3, true, true, none⟩

/-- C1: the adapter writes the target state onto the entity exactly when
the engine committed it (the assignment event appears in the trace iff
the engine commit does); on normal return the entity state equals the
target, and whenever an error propagates (every rejection raises, since
the composed onError always throws) the entity state field keeps its
prior value, so a rejection never leaves a torn write. -/
theorem transition_write_iff_commit (strategy process : OrderProcessHooks)
    (custom : Option (List (OrderState × List OrderState))) (now : Nat)
    (order : Order) (state : OrderState) :
    (OSMEv.writeEntityState state ∈
        (OrderStateMachine.transition strategy process custom now order state).events ↔
      OSMEv.engine (EngineEv.commit state) ∈
        (OrderStateMachine.transition strategy process custom now order state).events) ∧
    ((OrderStateMachine.transition strategy process custom now order state).exn = none →
      (OrderStateMachine.transition strategy process custom now order state).order.state =
        state) ∧
    ((OrderStateMachine.transition strategy process custom now order state).exn ≠ none →
      (OrderStateMachine.transition strategy process custom now order state).order.state =
        order.state) := by
  by_cases hcan : FSM.canTransitionTo
      (OrderStateMachine.initConfig strategy process custom now) order.state state = true
  · cases hg : OrderStateMachine.composedOnTransitionStart strategy process
        order.state state order with
    | proceed =>
        rw [adapter_transition_success strategy process custom now order state hcan hg]
        refine ⟨by simp, fun _ => rfl, by simp⟩
    | gstring s =>
        rw [adapter_transition_guardString strategy process custom now order state s hcan hg]
        refine ⟨by simp, by simp, fun _ => rfl⟩
    | gfalse =>
        rw [adapter_transition_guardFalse strategy process custom now order state hcan hg]
        refine ⟨by simp, by simp, fun _ => rfl⟩
  · have hcan' : FSM.canTransitionTo
        (OrderStateMachine.initConfig strategy process custom now) order.state state =
        false := by simpa using hcan
    rw [adapter_transition_illegal strategy process custom now order state hcan']
    refine ⟨by simp, by simp, fun _ => rfl⟩

/-- Witness for C1 at concrete inputs: a successful transition ends with
the entity state written, a rejected one leaves it unchanged. -/
theorem transition_write_iff_commit_witness :
    (OrderStateMachine.transition hooksNone hooksNone none 7 orderReady
        OrderState.ArrangingPayment).order.state = OrderState.ArrangingPayment ∧
    (OrderStateMachine.transition hooksNone hooksNone none 7 orderEmpty
        OrderState.ArrangingPayment).order.state = OrderState.AddingItems :=
  ⟨(transition_write_iff_commit hooksNone hooksNone none 7 orderReady
      OrderState.ArrangingPayment).2.1 (by decide),
    (transition_write_iff_commit hooksNone hooksNone none 7 orderEmpty
      OrderState.ArrangingPayment).2.2 (by decide)⟩

/-- The downstream and hook invocations recorded in an adapter trace, in
order. -/
def adapterCalls (events : List OSMEv) : List AdapterEv :=
  events.filterMap (fun e =>
    match e with
    | OSMEv.engine (EngineEv.hookEv a) => some a
    | _ => none)

/-- C10: with the spec-modelled default graph, an order in
ArrangingPayment transitions to PaymentAuthorized and then to
PaymentSettled (no configured start guards); each of the two transitions
invokes the stock-movement call and the promotion call exactly once
(hence twice across the pair), and the placement timestamp is stamped on
the first entrance and overwritten on the second. -/
theorem transition_payment_effects (strategy process : OrderProcessHooks)
    (now1 now2 : Nat) (o o1 : Order)
    (hs : strategy.onTransitionStart = none) (hp : process.onTransitionStart = none)
    (ho : o.state = .ArrangingPayment)
    (ho1 : o1 = (OrderStateMachine.transition strategy process none now1 o
      .PaymentAuthorized).order) :
    (OrderStateMachine.transition strategy process none now1 o
      .PaymentAuthorized).exn = none ∧
    (adapterCalls (OrderStateMachine.transition strategy process none now1 o
        .PaymentAuthorized).events).count (AdapterEv.stockCreateSales o.id) = 1 ∧
    (adapterCalls (OrderStateMachine.transition strategy process none now1 o
        .PaymentAuthorized).events).count (AdapterEv.promotionApply o.id) = 1 ∧
    o1.orderPlacedAt = some now1 ∧
    o1.active = false ∧
    o1.state = .PaymentAuthorized ∧
    (OrderStateMachine.transition strategy process none now2 o1
      .PaymentSettled).exn = none ∧
    (adapterCalls (OrderStateMachine.transition strategy process none now2 o1
        .PaymentSettled).events).count (AdapterEv.stockCreateSales o.id) = 1 ∧
    (adapterCalls (OrderStateMachine.transition strategy process none now2 o1
        .PaymentSettled).events).count (AdapterEv.promotionApply o.id) = 1 ∧
    (OrderStateMachine.transition strategy process none now2 o1
      .PaymentSettled).order.orderPlacedAt = some now2 ∧
    (adapterCalls ((OrderStateMachine.transition strategy process none now1 o
          .PaymentAuthorized).events ++
        (OrderStateMachine.transition strategy process none now2 o1
          .PaymentSettled).events)).count (AdapterEv.stockCreateSales o.id) = 2 ∧
    (adapterCalls ((OrderStateMachine.transition strategy process none now1 o
          .PaymentAuthorized).events ++
        (OrderStateMachine.transition strategy process none now2 o1
          .PaymentSettled).events)).count (AdapterEv.promotionApply o.id) = 2 := by
  obtain ⟨oid, ost, oln, ocu, oac, opl⟩ := o
  have host : ost = OrderState.ArrangingPayment := ho
  subst host
  have hcan1 : FSM.canTransitionTo
      (OrderStateMachine.initConfig strategy process none now1)
      (Order.state ⟨oid, .ArrangingPayment, oln, ocu, oac, opl⟩)
      .PaymentAuthorized = true := rfl
  have hg1 : OrderStateMachine.composedOnTransitionStart strategy process
      (Order.state ⟨oid, .ArrangingPayment, oln, ocu, oac, opl⟩) .PaymentAuthorized
      ⟨oid, .ArrangingPayment, oln, ocu, oac, opl⟩ = .proceed := by
    simp [OrderStateMachine.composedOnTransitionStart, hs, hp,
      OrderStateMachine.onTransitionStart]
  rw [adapter_transition_success strategy process none now1
    ⟨oid, .ArrangingPayment, oln, ocu, oac, opl⟩ .PaymentAuthorized hcan1 hg1] at ho1 ⊢
  have ho1' : o1 = ⟨oid, .PaymentAuthorized, oln, ocu, false, some now1⟩ := by
    rw [ho1]
    simp [OrderStateMachine.composedOnTransitionEnd, OrderStateMachine.onTransitionEnd]
  subst ho1'
  have hcan2 : FSM.canTransitionTo
      (OrderStateMachine.initConfig strategy process none now2)
      (Order.state ⟨oid, .PaymentAuthorized, oln, ocu, false, some now1⟩)
      .PaymentSettled = true := rfl
  have hg2 : OrderStateMachine.composedOnTransitionStart strategy process
      (Order.state ⟨oid, .PaymentAuthorized, oln, ocu, false, some now1⟩) .PaymentSettled
      ⟨oid, .PaymentAuthorized, oln, ocu, false, some now1⟩ = .proceed := by
    simp [OrderStateMachine.composedOnTransitionStart, hs, hp,
      OrderStateMachine.onTransitionStart]
  rw [adapter_transition_success strategy process none now2
    ⟨oid, .PaymentAuthorized, oln, ocu, false, some now1⟩ .PaymentSettled hcan2 hg2]
  cases hA : strategy.onTransitionEnd <;> cases hB : process.onTransitionEnd <;>
    simp [adapterCalls, OrderStateMachine.composedOnTransitionEnd,
      OrderStateMachine.onTransitionEnd, hA, hB, List.count_cons, List.count_append,
      List.filterMap_append, List.filterMap_map, List.filterMap_cons, Function.comp,
      List.count_nil]

/-- An order in ArrangingPayment, ready for payment. -/
def orderPaying : Order := ⟨5, .ArrangingPayment, 2, true, true, some 11⟩

/-- Witness for C10 at concrete inputs: the second entrance overwrites the
placement timestamp and the stock call has run twice across the two
transitions. -/
theorem transition_payment_effects_witness :
    (OrderStateMachine.transition hooksNone hooksNone none 22
        (⟨5, .PaymentAuthorized, 2, true, false, some 21⟩ : Order)
        OrderState.PaymentSettled).order.orderPlacedAt = some 22 ∧
    (adapterCalls ((OrderStateMachine.transition hooksNone hooksNone none 21 orderPaying
          OrderState.PaymentAuthorized).events ++
        (OrderStateMachine.transition hooksNone hooksNone none 22
          (⟨5, .PaymentAuthorized, 2, true, false, some 21⟩ : Order)
          OrderState.PaymentSettled).events)).count (AdapterEv.stockCreateSales 5) = 2 := by
  have h := transition_payment_effects hooksNone hooksNone 21 22 orderPaying
    ⟨5, .PaymentAuthorized, 2, true, false, some 21⟩ rfl rfl rfl (by decide)
  exact ⟨h.2.2.2.2.2.2.2.2.2.1, h.2.2.2.2.2.2.2.2.2.2.1⟩
